import Mathlib

/-!
Verification of the lexical analyzer in src/LA.cpp.

The embedding models the source string as a `List Char` and the token
vector as a `List Token`.  Every definition below is translated directly
from the C++ source; line numbers refer to src/LA.cpp.

The main scanning loop (lines 53-131) advances an index through the
string and pushes tokens; here it is expressed as recursion over the
remaining suffix of the input, which is exactly the part of the string
from the current index on.  A second, fuel-indexed version `lexLoop`
(structurally recursive, hence kernel-computable) mirrors the same loop
and is proved to agree with `lexicalAnalysis`; it both witnesses
termination within `length` iterations and lets concrete runs be
evaluated by `decide`.
-/

namespace LA

/-- Embeds `isLetter` (LA.cpp lines 19-21). -/
def isLetter (c : Char) : Bool :=
  (decide ('a' ≤ c) && decide (c ≤ 'z')) || (decide ('A' ≤ c) && decide (c ≤ 'Z'))

/-- Embeds `isDigit` (LA.cpp lines 23-25). -/
def isDigit (c : Char) : Bool :=
  decide ('0' ≤ c) && decide (c ≤ '9')

/-- Embeds `isWhitespace` (LA.cpp lines 27-29). -/
def isWhitespace (c : Char) : Bool :=
  c == ' ' || c == '\t' || c == '\n' || c == '\r'

/-- Embeds the constant set `KEYWORDS` (LA.cpp lines 32-34). -/
def KEYWORDS : List (List Char) :=
  ["int".data, "float".data, "if".data, "else".data, "while".data,
   "return".data, "void".data]

/-- Embeds `isKeyword` (LA.cpp lines 36-38): membership in `KEYWORDS`. -/
def isKeyword (lexeme : List Char) : Bool :=
  KEYWORDS.contains lexeme

/-- Embeds the constant set `SINGLE_CHAR_TOKENS` (LA.cpp lines 41-43). -/
def SINGLE_CHAR_TOKENS : List Char :=
  ['+', '-', '*', '/', '=', '>', '<', ';', '(', ')', '\x7b', '\x7d']

/-- Embeds `struct Token` (LA.cpp lines 10-13): a kind tag and a lexeme. -/
structure Token where
  type : String
  value : List Char
deriving DecidableEq

/-- The condition of the identifier-accumulation loop (LA.cpp line 70). -/
def isIdentChar (d : Char) : Bool :=
  isLetter d || isDigit d

/-- The inner accumulation loops (LA.cpp lines 70-73 and 91-94): consume
characters while `p` holds, returning the consumed prefix (the accumulated
lexeme tail) and the unconsumed remainder (the position the index stops at). -/
def scanWhile (p : Char → Bool) : List Char → List Char × List Char
  | [] => ([], [])
  | c :: rest =>
    if p c then
      let r := scanWhile p rest
      (c :: r.1, r.2)
    else ([], c :: rest)

/-- The lookahead guard `current_index + 1 < sourceCode.length() &&
sourceCode[current_index + 1] == '='` (LA.cpp line 107), phrased on the
characters after the cursor.  On an empty remainder the index check fails
and the subscript `sourceCode[current_index + 1]` is never evaluated. -/
def lookaheadIsEq : List Char → Bool
  | [] => false
  | d :: _ => d == '='

/-- The single-character classification branch (LA.cpp lines 114-122).
In the source `token_value` is the one-character string built on line 102,
so its length test on line 118 is always true; the branch reduces to the
three-way test on `current_char` embedded here. -/
def classifySingle (c : Char) : Token :=
  if c == '+' || c == '-' || c == '*' then Token.mk "ARITHMETIC_OPERATOR" [c]
  else if c == '=' then Token.mk "ASSIGNMENT_OPERATOR" [c]
  else Token.mk "DELIMITER" [c]

/-- The keyword-or-identifier acceptance (LA.cpp lines 76-80). -/
def identToken (lexeme : List Char) : Token :=
  if isKeyword lexeme then Token.mk "KEYWORD" lexeme
  else Token.mk "IDENTIFIER" lexeme

theorem scanWhile_snd_length (p : Char → Bool) (l : List Char) :
    (scanWhile p l).2.length ≤ l.length := by
  induction l with
  | nil => simp [scanWhile]
  | cons c rest ih =>
    simp only [scanWhile]
    split
    · simpa using Nat.le_succ_of_le ih
    · simp

/-- Embeds `lexicalAnalysis` (LA.cpp lines 49-133).  The argument is the
suffix of the source string from the current index on; each equation is one
iteration of the while loop at lines 53-131, in the order the branches are
tested there.  In the relational branch the emitted second character is
written `'='` because the guard (line 107) has just checked that the
character after the cursor equals `'='`. -/
def lexicalAnalysis : List Char → List Token
  | [] => []
  | c :: rest =>
    if isWhitespace c then
      lexicalAnalysis rest
    else if isLetter c then
      identToken (c :: (scanWhile isIdentChar rest).1) ::
        lexicalAnalysis (scanWhile isIdentChar rest).2
    else if isDigit c then
      Token.mk "INTEGER" (c :: (scanWhile isDigit rest).1) ::
        lexicalAnalysis (scanWhile isDigit rest).2
    else if SINGLE_CHAR_TOKENS.contains c then
      if (c == '=' || c == '<' || c == '>') && lookaheadIsEq rest then
        Token.mk "RELATIONAL_OPERATOR" [c, '='] :: lexicalAnalysis (rest.drop 1)
      else
        classifySingle c :: lexicalAnalysis rest
    else
      Token.mk "ERROR" [c] :: lexicalAnalysis rest
termination_by l => l.length
decreasing_by
  · simp
  · exact Nat.lt_succ_of_le (scanWhile_snd_length _ _)
  · exact Nat.lt_succ_of_le (scanWhile_snd_length _ _)
  · simp only [List.length_cons, List.length_drop]
    omega
  · simp
  · simp

/-- The same loop with an explicit iteration budget: one unit of fuel per
iteration of the while loop at LA.cpp lines 53-131, `none` when the budget
runs out with input left.  Structurally recursive, hence computable by the
kernel; proved below to return `some (lexicalAnalysis l)` whenever the
budget is at least `l.length`, which is a termination certificate for the
loop (each iteration consumes at least one character). -/
def lexLoop : Nat → List Char → Option (List Token)
  | _, [] => some []
  | 0, _ :: _ => none
  | fuel + 1, c :: rest =>
    if isWhitespace c then
      lexLoop fuel rest
    else if isLetter c then
      (lexLoop fuel (scanWhile isIdentChar rest).2).map
        (fun ts => identToken (c :: (scanWhile isIdentChar rest).1) :: ts)
    else if isDigit c then
      (lexLoop fuel (scanWhile isDigit rest).2).map
        (fun ts => Token.mk "INTEGER" (c :: (scanWhile isDigit rest).1) :: ts)
    else if SINGLE_CHAR_TOKENS.contains c then
      if (c == '=' || c == '<' || c == '>') && lookaheadIsEq rest then
        (lexLoop fuel (rest.drop 1)).map
          (fun ts => Token.mk "RELATIONAL_OPERATOR" [c, '='] :: ts)
      else
        (lexLoop fuel rest).map (fun ts => classifySingle c :: ts)
    else
      (lexLoop fuel rest).map (fun ts => Token.mk "ERROR" [c] :: ts)

/-! Character-class facts used to discharge the branch guards. -/

theorem isWhitespace_cases (c : Char) (h : isWhitespace c = true) :
    c = ' ' ∨ c = '\t' ∨ c = '\n' ∨ c = '\r' := by
  have h' : ((c = ' ' ∨ c = '\t') ∨ c = '\n') ∨ c = '\r' := by
    simpa [isWhitespace] using h
  tauto

theorem isLetter_not_ws (c : Char) (h : isLetter c = true) :
    isWhitespace c = false := by
  cases hw : isWhitespace c with
  | false => rfl
  | true =>
    rcases isWhitespace_cases c hw with rfl | rfl | rfl | rfl <;>
      exact absurd h (by decide)

theorem isDigit_not_ws (c : Char) (h : isDigit c = true) :
    isWhitespace c = false := by
  cases hw : isWhitespace c with
  | false => rfl
  | true =>
    rcases isWhitespace_cases c hw with rfl | rfl | rfl | rfl <;>
      exact absurd h (by decide)

theorem isDigit_not_letter (c : Char) (h : isDigit c = true) :
    isLetter c = false := by
  simp only [isDigit, Bool.and_eq_true, decide_eq_true_eq] at h
  have ha : ¬ ('a' ≤ c) := not_le.mpr (lt_of_le_of_lt h.2 (by decide))
  have hA : ¬ ('A' ≤ c) := not_le.mpr (lt_of_le_of_lt h.2 (by decide))
  simp [isLetter, decide_eq_false ha, decide_eq_false hA]

/-! One unfolding lemma per branch of the scanning loop. -/

theorem lexicalAnalysis_nil : lexicalAnalysis [] = [] := by
  rw [lexicalAnalysis]

theorem lexicalAnalysis_ws (c : Char) (rest : List Char)
    (h : isWhitespace c = true) :
    lexicalAnalysis (c :: rest) = lexicalAnalysis rest := by
  rw [lexicalAnalysis, h]
  simp

theorem lexicalAnalysis_letter (c : Char) (rest : List Char)
    (h : isLetter c = true) :
    lexicalAnalysis (c :: rest) =
      identToken (c :: (scanWhile isIdentChar rest).1) ::
        lexicalAnalysis (scanWhile isIdentChar rest).2 := by
  rw [lexicalAnalysis, isLetter_not_ws c h, h]
  simp

theorem lexicalAnalysis_digit (c : Char) (rest : List Char)
    (h : isDigit c = true) :
    lexicalAnalysis (c :: rest) =
      Token.mk "INTEGER" (c :: (scanWhile isDigit rest).1) ::
        lexicalAnalysis (scanWhile isDigit rest).2 := by
  rw [lexicalAnalysis, isDigit_not_ws c h, isDigit_not_letter c h, h]
  simp

theorem lexicalAnalysis_single (c : Char) (rest : List Char)
    (hw : isWhitespace c = false) (hl : isLetter c = false)
    (hd : isDigit c = false) (hs : SINGLE_CHAR_TOKENS.contains c = true)
    (hla : ((c == '=' || c == '<' || c == '>') && lookaheadIsEq rest) = false) :
    lexicalAnalysis (c :: rest) = classifySingle c :: lexicalAnalysis rest := by
  rw [lexicalAnalysis, hw, hl, hd, hs, hla]
  simp

theorem lexicalAnalysis_rel (c : Char) (rest : List Char)
    (hw : isWhitespace c = false) (hl : isLetter c = false)
    (hd : isDigit c = false) (hs : SINGLE_CHAR_TOKENS.contains c = true)
    (hla : ((c == '=' || c == '<' || c == '>') && lookaheadIsEq rest) = true) :
    lexicalAnalysis (c :: rest) =
      Token.mk "RELATIONAL_OPERATOR" [c, '='] :: lexicalAnalysis (rest.drop 1) := by
  rw [lexicalAnalysis, hw, hl, hd, hs, hla]
  simp

theorem lexicalAnalysis_err (c : Char) (rest : List Char)
    (hw : isWhitespace c = false) (hl : isLetter c = false)
    (hd : isDigit c = false) (hs : SINGLE_CHAR_TOKENS.contains c = false) :
    lexicalAnalysis (c :: rest) = Token.mk "ERROR" [c] :: lexicalAnalysis rest := by
  rw [lexicalAnalysis, hw, hl, hd, hs]
  simp

/-- The accumulation loop takes the maximal prefix satisfying `p` and stops
at the first character that fails `p`, which it does not consume. -/
theorem scanWhile_eq (p : Char → Bool) (l : List Char) :
    scanWhile p l = (l.takeWhile p, l.dropWhile p) := by
  induction l with
  | nil => simp [scanWhile]
  | cons c rest ih =>
    cases hp : p c with
    | false => simp [scanWhile, hp, List.takeWhile_cons, List.dropWhile_cons]
    | true => simp [scanWhile, hp, List.takeWhile_cons, List.dropWhile_cons, ih]

/-- Induction along the iterations of the scanning loop: one case per
branch, each with the guards that held when the branch was taken. -/
theorem lexRec (P : List Char → Prop)
    (hnil : P [])
    (hws : ∀ c rest, isWhitespace c = true → P rest → P (c :: rest))
    (hident : ∀ c rest, isWhitespace c = false → isLetter c = true →
      P (scanWhile isIdentChar rest).2 → P (c :: rest))
    (hint : ∀ c rest, isWhitespace c = false → isLetter c = false →
      isDigit c = true → P (scanWhile isDigit rest).2 → P (c :: rest))
    (hrel : ∀ c rest, isWhitespace c = false → isLetter c = false →
      isDigit c = false → SINGLE_CHAR_TOKENS.contains c = true →
      ((c == '=' || c == '<' || c == '>') && lookaheadIsEq rest) = true →
      P (rest.drop 1) → P (c :: rest))
    (hsingle : ∀ c rest, isWhitespace c = false → isLetter c = false →
      isDigit c = false → SINGLE_CHAR_TOKENS.contains c = true →
      ((c == '=' || c == '<' || c == '>') && lookaheadIsEq rest) = false →
      P rest → P (c :: rest))
    (herr : ∀ c rest, isWhitespace c = false → isLetter c = false →
      isDigit c = false → SINGLE_CHAR_TOKENS.contains c = false →
      P rest → P (c :: rest)) :
    ∀ l, P l := by
  suffices key : ∀ n (l : List Char), l.length ≤ n → P l by
    exact fun l => key l.length l le_rfl
  intro n
  induction n with
  | zero =>
    intro l hl
    have : l = [] := List.length_eq_zero.mp (Nat.le_zero.mp hl)
    exact this ▸ hnil
  | succ n ih =>
    intro l hl
    cases l with
    | nil => exact hnil
    | cons c rest =>
      have hr : rest.length ≤ n := by simpa using hl
      have hdr : (rest.drop 1).length ≤ n := by
        simp only [List.length_drop]
        omega
      cases hw : isWhitespace c with
      | true => exact hws c rest hw (ih rest hr)
      | false =>
        cases hlet : isLetter c with
        | true =>
          exact hident c rest hw hlet
            (ih _ (le_trans (scanWhile_snd_length _ _) hr))
        | false =>
          cases hd : isDigit c with
          | true =>
            exact hint c rest hw hlet hd
              (ih _ (le_trans (scanWhile_snd_length _ _) hr))
          | false =>
            cases hs : SINGLE_CHAR_TOKENS.contains c with
            | true =>
              cases hla : ((c == '=' || c == '<' || c == '>') && lookaheadIsEq rest) with
              | true => exact hrel c rest hw hlet hd hs hla (ih _ hdr)
              | false => exact hsingle c rest hw hlet hd hs hla (ih rest hr)
            | false => exact herr c rest hw hlet hd hs (ih rest hr)

/-- A budget of one unit of fuel per input character is enough: the
fuel-indexed loop finishes (returns `some`) and computes exactly
`lexicalAnalysis`. -/
theorem lexLoop_eq_some (fuel : Nat) :
    ∀ l : List Char, l.length ≤ fuel → lexLoop fuel l = some (lexicalAnalysis l) := by
  induction fuel with
  | zero =>
    intro l hl
    have : l = [] := List.length_eq_zero.mp (Nat.le_zero.mp hl)
    subst this
    simp [lexLoop, lexicalAnalysis_nil]
  | succ fuel ih =>
    intro l hl
    cases l with
    | nil => simp [lexLoop, lexicalAnalysis_nil]
    | cons c rest =>
      have hr : rest.length ≤ fuel := by simpa using hl
      have hdr : (rest.drop 1).length ≤ fuel := by
        simp only [List.length_drop]
        omega
      rw [lexLoop, lexicalAnalysis]
      cases hw : isWhitespace c with
      | true => simp [hw, ih rest hr]
      | false =>
        cases hlet : isLetter c with
        | true =>
          simp [hw, hlet, ih _ (le_trans (scanWhile_snd_length _ _) hr)]
        | false =>
          cases hd : isDigit c with
          | true =>
            simp [hw, hlet, hd, ih _ (le_trans (scanWhile_snd_length _ _) hr)]
          | false =>
            cases hs : SINGLE_CHAR_TOKENS.contains c with
            | true =>
              cases hla : ((c == '=' || c == '<' || c == '>') && lookaheadIsEq rest) with
              | true =>
                have hta : lexLoop fuel rest.tail = some (lexicalAnalysis rest.tail) := by
                  apply ih
                  simp only [List.length_tail]
                  omega
                simp [hw, hlet, hd, hs, hla, hta]
              | false => simp [hw, hlet, hd, hs, hla, ih rest hr]
            | false => simp [hw, hlet, hd, hs, ih rest hr]

/-- Transfer of concrete runs of the computable loop to `lexicalAnalysis`. -/
theorem lexicalAnalysis_eval {l : List Char} {ts : List Token}
    (h : lexLoop l.length l = some ts) : lexicalAnalysis l = ts := by
  have h2 := lexLoop_eq_some l.length l le_rfl
  rw [h] at h2
  exact (Option.some.inj h2).symm

/-- The re-insertion described by the spec invariant (spec.md section 3):
walk the original text, keeping each whitespace character where it stood,
and filling every other position from the stream of token characters. -/
def reinsertWhitespace : List Char → List Char → List Char
  | [], _ => []
  | c :: orig, toks =>
    if isWhitespace c then c :: reinsertWhitespace orig toks
    else
      match toks with
      | [] => []
      | t :: ts => t :: reinsertWhitespace orig ts

theorem identToken_value (lexeme : List Char) : (identToken lexeme).value = lexeme := by
  unfold identToken
  split <;> rfl

theorem classifySingle_value (c : Char) : (classifySingle c).value = [c] := by
  unfold classifySingle
  split_ifs <;> rfl

theorem isIdentChar_not_ws (d : Char) (h : isIdentChar d = true) :
    isWhitespace d = false := by
  rcases Bool.or_eq_true_iff.mp h with hl | hd
  · exact isLetter_not_ws d hl
  · exact isDigit_not_ws d hd

theorem lookaheadIsEq_cases (rest : List Char) (h : lookaheadIsEq rest = true) :
    ∃ tail, rest = '=' :: tail := by
  cases rest with
  | nil => simp [lookaheadIsEq] at h
  | cons d tail =>
    simp only [lookaheadIsEq, beq_iff_eq] at h
    exact ⟨tail, by rw [h]⟩

/-- Filling the non-whitespace positions of `l` with exactly the
non-whitespace characters of `l` reproduces `l`. -/
theorem reinsertWhitespace_filter (l : List Char) :
    reinsertWhitespace l (l.filter (fun c => !isWhitespace c)) = l := by
  induction l with
  | nil => rfl
  | cons c orig ih =>
    cases hw : isWhitespace c with
    | true => simp [reinsertWhitespace, List.filter_cons, hw, ih]
    | false => simp [reinsertWhitespace, List.filter_cons, hw, ih]

/-- The lexemes of the emitted tokens, concatenated in order, are exactly
the input with its whitespace characters removed: the scanner consumes
every non-whitespace character into exactly one lexeme, keeps the
characters in order, and puts no whitespace into any lexeme. -/
theorem flatten_lexemes (l : List Char) :
    ((lexicalAnalysis l).map Token.value).flatten =
      l.filter (fun c => !isWhitespace c) := by
  induction l using lexRec with
  | hnil => simp [lexicalAnalysis_nil]
  | hws c rest hw ih =>
    rw [lexicalAnalysis_ws c rest hw]
    simp [List.filter_cons, hw, ih]
  | hident c rest hw hl ih =>
    rw [lexicalAnalysis_letter c rest hl]
    rw [scanWhile_eq] at ih ⊢
    have htw : (rest.takeWhile isIdentChar).filter (fun c => !isWhitespace c) =
        rest.takeWhile isIdentChar :=
      List.filter_eq_self.mpr fun a ha => by
        simp [isIdentChar_not_ws a (List.mem_takeWhile_imp ha)]
    calc ((identToken (c :: (rest.takeWhile isIdentChar, rest.dropWhile isIdentChar).1) ::
            lexicalAnalysis (rest.takeWhile isIdentChar, rest.dropWhile isIdentChar).2).map
              Token.value).flatten
        = c :: (rest.takeWhile isIdentChar ++
            ((lexicalAnalysis (rest.dropWhile isIdentChar)).map Token.value).flatten) := by
          simp [identToken_value]
      _ = c :: (rest.takeWhile isIdentChar ++
            (rest.dropWhile isIdentChar).filter (fun c => !isWhitespace c)) := by rw [ih]
      _ = (c :: rest).filter (fun c => !isWhitespace c) := by
          have hsplit : rest.filter (fun c => !isWhitespace c) =
              rest.takeWhile isIdentChar ++
                (rest.dropWhile isIdentChar).filter (fun c => !isWhitespace c) := by
            conv_lhs => rw [← List.takeWhile_append_dropWhile (p := isIdentChar) (l := rest)]
            rw [List.filter_append, htw]
          rw [List.filter_cons]
          simp [hw, hsplit]
  | hint c rest hw hl hd ih =>
    rw [lexicalAnalysis_digit c rest hd]
    rw [scanWhile_eq] at ih ⊢
    have htw : (rest.takeWhile isDigit).filter (fun c => !isWhitespace c) =
        rest.takeWhile isDigit :=
      List.filter_eq_self.mpr fun a ha => by
        simp [isDigit_not_ws a (List.mem_takeWhile_imp ha)]
    calc ((Token.mk "INTEGER" (c :: (rest.takeWhile isDigit, rest.dropWhile isDigit).1) ::
            lexicalAnalysis (rest.takeWhile isDigit, rest.dropWhile isDigit).2).map
              Token.value).flatten
        = c :: (rest.takeWhile isDigit ++
            ((lexicalAnalysis (rest.dropWhile isDigit)).map Token.value).flatten) := by simp
      _ = c :: (rest.takeWhile isDigit ++
            (rest.dropWhile isDigit).filter (fun c => !isWhitespace c)) := by rw [ih]
      _ = (c :: rest).filter (fun c => !isWhitespace c) := by
          have hsplit : rest.filter (fun c => !isWhitespace c) =
              rest.takeWhile isDigit ++
                (rest.dropWhile isDigit).filter (fun c => !isWhitespace c) := by
            conv_lhs => rw [← List.takeWhile_append_dropWhile (p := isDigit) (l := rest)]
            rw [List.filter_append, htw]
          rw [List.filter_cons]
          simp [hw, hsplit]
  | hrel c rest hw hl hd hs hla ih =>
    rw [lexicalAnalysis_rel c rest hw hl hd hs hla]
    obtain ⟨tail, rfl⟩ :=
      lookaheadIsEq_cases rest (Bool.and_eq_true_iff.mp hla).2
    simp only [List.drop_succ_cons, List.drop_zero] at ih ⊢
    have hwe : isWhitespace '=' = false := by decide
    simp [List.filter_cons, hw, hwe, ih]
  | hsingle c rest hw hl hd hs hla ih =>
    rw [lexicalAnalysis_single c rest hw hl hd hs hla]
    simp [List.filter_cons, hw, classifySingle_value, ih]
  | herr c rest hw hl hd hs ih =>
    rw [lexicalAnalysis_err c rest hw hl hd hs]
    simp [List.filter_cons, hw, ih]

/-- One iteration of the scanning loop (LA.cpp lines 53-131) as a relation
on machine states.  A state is the pair (remaining input, tokens emitted so
far), i.e. the loop variables `current_index` (as the suffix it points to)
and `tokens`.  Each constructor is one branch, carrying the guards that
held when the branch was taken. -/
inductive LexStep : List Char × List Token → List Char × List Token → Prop where
  | ws (c : Char) (rest : List Char) (ts : List Token) :
      isWhitespace c = true →
      LexStep (c :: rest, ts) (rest, ts)
  | ident (c : Char) (rest : List Char) (ts : List Token) :
      isWhitespace c = false → isLetter c = true →
      LexStep (c :: rest, ts)
        ((scanWhile isIdentChar rest).2,
          ts ++ [identToken (c :: (scanWhile isIdentChar rest).1)])
  | int (c : Char) (rest : List Char) (ts : List Token) :
      isWhitespace c = false → isLetter c = false → isDigit c = true →
      LexStep (c :: rest, ts)
        ((scanWhile isDigit rest).2,
          ts ++ [Token.mk "INTEGER" (c :: (scanWhile isDigit rest).1)])
  | rel (c : Char) (rest : List Char) (ts : List Token) :
      isWhitespace c = false → isLetter c = false → isDigit c = false →
      SINGLE_CHAR_TOKENS.contains c = true →
      ((c == '=' || c == '<' || c == '>') && lookaheadIsEq rest) = true →
      LexStep (c :: rest, ts)
        (rest.drop 1, ts ++ [Token.mk "RELATIONAL_OPERATOR" [c, '=']])
  | single (c : Char) (rest : List Char) (ts : List Token) :
      isWhitespace c = false → isLetter c = false → isDigit c = false →
      SINGLE_CHAR_TOKENS.contains c = true →
      ((c == '=' || c == '<' || c == '>') && lookaheadIsEq rest) = false →
      LexStep (c :: rest, ts) (rest, ts ++ [classifySingle c])
  | err (c : Char) (rest : List Char) (ts : List Token) :
      isWhitespace c = false → isLetter c = false → isDigit c = false →
      SINGLE_CHAR_TOKENS.contains c = false →
      LexStep (c :: rest, ts) (rest, ts ++ [Token.mk "ERROR" [c]])

/-- Zero or more iterations of the scanning loop. -/
inductive LexSteps : List Char × List Token → List Char × List Token → Prop where
  | refl (s : List Char × List Token) : LexSteps s s
  | step (s t u : List Char × List Token) :
      LexStep s t → LexSteps t u → LexSteps s u

/-- The loop body is deterministic: from any state at most one branch can
fire, and it fixes the successor state completely. -/
theorem lexStep_det {s t t' : List Char × List Token}
    (h1 : LexStep s t) (h2 : LexStep s t') : t = t' := by
  cases h1 <;> cases h2 <;> simp_all

/-- Each iteration preserves the tokens already emitted followed by the
analysis of what remains. -/
theorem lexStep_result {s t : List Char × List Token} (h : LexStep s t) :
    t.2 ++ lexicalAnalysis t.1 = s.2 ++ lexicalAnalysis s.1 := by
  cases h with
  | ws c rest ts hw => simp [lexicalAnalysis_ws c rest hw]
  | ident c rest ts hw hl => simp [lexicalAnalysis_letter c rest hl]
  | int c rest ts hw hl hd => simp [lexicalAnalysis_digit c rest hd]
  | rel c rest ts hw hl hd hs hla => simp [lexicalAnalysis_rel c rest hw hl hd hs hla]
  | single c rest ts hw hl hd hs hla => simp [lexicalAnalysis_single c rest hw hl hd hs hla]
  | err c rest ts hw hl hd hs => simp [lexicalAnalysis_err c rest hw hl hd hs]

/-- From any start state the loop can run to completion, emitting exactly
`lexicalAnalysis` of the remaining input after the tokens already there. -/
theorem lexSteps_complete (l : List Char) :
    ∀ ts : List Token, LexSteps (l, ts) ([], ts ++ lexicalAnalysis l) := by
  induction l using lexRec with
  | hnil =>
    intro ts
    rw [lexicalAnalysis_nil, List.append_nil]
    exact LexSteps.refl _
  | hws c rest hw ih =>
    intro ts
    rw [lexicalAnalysis_ws c rest hw]
    exact LexSteps.step _ _ _ (LexStep.ws c rest ts hw) (ih ts)
  | hident c rest hw hl ih =>
    intro ts
    rw [lexicalAnalysis_letter c rest hl]
    refine LexSteps.step _ _ _ (LexStep.ident c rest ts hw hl) ?_
    simpa [List.append_assoc] using
      ih (ts ++ [identToken (c :: (scanWhile isIdentChar rest).1)])
  | hint c rest hw hl hd ih =>
    intro ts
    rw [lexicalAnalysis_digit c rest hd]
    refine LexSteps.step _ _ _ (LexStep.int c rest ts hw hl hd) ?_
    simpa [List.append_assoc] using
      ih (ts ++ [Token.mk "INTEGER" (c :: (scanWhile isDigit rest).1)])
  | hrel c rest hw hl hd hs hla ih =>
    intro ts
    rw [lexicalAnalysis_rel c rest hw hl hd hs hla]
    refine LexSteps.step _ _ _ (LexStep.rel c rest ts hw hl hd hs hla) ?_
    simpa [List.append_assoc] using
      ih (ts ++ [Token.mk "RELATIONAL_OPERATOR" [c, '=']])
  | hsingle c rest hw hl hd hs hla ih =>
    intro ts
    rw [lexicalAnalysis_single c rest hw hl hd hs hla]
    refine LexSteps.step _ _ _ (LexStep.single c rest ts hw hl hd hs hla) ?_
    simpa [List.append_assoc] using ih (ts ++ [classifySingle c])
  | herr c rest hw hl hd hs ih =>
    intro ts
    rw [lexicalAnalysis_err c rest hw hl hd hs]
    refine LexSteps.step _ _ _ (LexStep.err c rest ts hw hl hd hs) ?_
    simpa [List.append_assoc] using ih (ts ++ [Token.mk "ERROR" [c]])

/-- Whenever the loop has consumed all input, the tokens it holds are the
tokens it started with followed by the analysis of the input it started
with: the final token sequence is a function of the input alone. -/
theorem lexSteps_final {s u : List Char × List Token}
    (h : LexSteps s u) (hu : u.1 = []) :
    u.2 = s.2 ++ lexicalAnalysis s.1 := by
  induction h with
  | refl s =>
    obtain ⟨l, ts⟩ := s
    simp only at hu
    subst hu
    rw [lexicalAnalysis_nil, List.append_nil]
  | step s t u hst htu ih =>
    rw [ih hu, lexStep_result hst]

/-- The six-character delimiter set named by the spec table (section 4.2):
a definition following the spec words, for comparison with the code. -/
def specDelimiterChars : List Char :=
  ['/', ';', '(', ')', '\x7b', '\x7d']

/-- The characters the code actually emits as DELIMITER: the members of
`SINGLE_CHAR_TOKENS` left to the final else of LA.cpp lines 116-122, i.e.
all of them except `+`, `-`, `*` (arithmetic) and `=` (assignment). -/
def delimiterChars : List Char :=
  ['/', ';', '(', ')', '\x7b', '\x7d', '<', '>']

theorem singleCharTokens_cases (c : Char)
    (h : SINGLE_CHAR_TOKENS.contains c = true) :
    c = '+' ∨ c = '-' ∨ c = '*' ∨ c = '/' ∨ c = '=' ∨ c = '>' ∨ c = '<' ∨
      c = ';' ∨ c = '(' ∨ c = ')' ∨ c = '\x7b' ∨ c = '\x7d' := by
  simp [SINGLE_CHAR_TOKENS] at h
  tauto

theorem classifySingle_delim (c : Char)
    (hs : SINGLE_CHAR_TOKENS.contains c = true)
    (ht : (classifySingle c).type = "DELIMITER") :
    c ∈ delimiterChars := by
  rcases singleCharTokens_cases c hs with
    rfl | rfl | rfl | rfl | rfl | rfl | rfl | rfl | rfl | rfl | rfl | rfl <;>
    first
      | exact absurd ht (by decide)
      | decide

/-- Every DELIMITER token the analyzer ever emits is a single character
from `delimiterChars`. -/
theorem delimiter_value (l : List Char) :
    ∀ t ∈ lexicalAnalysis l, t.type = "DELIMITER" →
      ∃ c, t.value = [c] ∧ c ∈ delimiterChars := by
  induction l using lexRec with
  | hnil => simp [lexicalAnalysis_nil]
  | hws c rest hw ih =>
    rw [lexicalAnalysis_ws c rest hw]
    exact ih
  | hident c rest hw hl ih =>
    rw [lexicalAnalysis_letter c rest hl]
    intro t ht htype
    rcases List.mem_cons.mp ht with rfl | hmem
    · unfold identToken at htype
      split at htype <;> simp_all
    · exact ih t hmem htype
  | hint c rest hw hl hd ih =>
    rw [lexicalAnalysis_digit c rest hd]
    intro t ht htype
    rcases List.mem_cons.mp ht with rfl | hmem
    · simp at htype
    · exact ih t hmem htype
  | hrel c rest hw hl hd hs hla ih =>
    rw [lexicalAnalysis_rel c rest hw hl hd hs hla]
    intro t ht htype
    rcases List.mem_cons.mp ht with rfl | hmem
    · simp at htype
    · exact ih t hmem htype
  | hsingle c rest hw hl hd hs hla ih =>
    rw [lexicalAnalysis_single c rest hw hl hd hs hla]
    intro t ht htype
    rcases List.mem_cons.mp ht with rfl | hmem
    · exact ⟨c, classifySingle_value c, classifySingle_delim c hs htype⟩
    · exact ih t hmem htype
  | herr c rest hw hl hd hs ih =>
    rw [lexicalAnalysis_err c rest hw hl hd hs]
    intro t ht htype
    rcases List.mem_cons.mp ht with rfl | hmem
    · simp at htype
    · exact ih t hmem htype

/-- Conversely, each character of `delimiterChars` standing alone is
emitted as one DELIMITER token holding exactly that character. -/
theorem delimiter_single_char (c : Char) (hc : c ∈ delimiterChars) :
    lexicalAnalysis [c] = [Token.mk "DELIMITER" [c]] := by
  simp [delimiterChars] at hc
  rcases hc with rfl | rfl | rfl | rfl | rfl | rfl | rfl | rfl <;>
    exact lexicalAnalysis_eval (by decide)

/-- Helper for the amended claim C10: the analyzer emits at most one token
per input character, and every emitted token has a non-empty lexeme. -/
theorem token_bounds (l : List Char) :
    (lexicalAnalysis l).length ≤ l.length ∧
      ∀ t ∈ lexicalAnalysis l, t.value ≠ [] := by
  induction l using lexRec with
  | hnil => simp [lexicalAnalysis_nil]
  | hws c rest hw ih =>
    rw [lexicalAnalysis_ws c rest hw]
    exact ⟨le_trans ih.1 (by simp), ih.2⟩
  | hident c rest hw hl ih =>
    rw [lexicalAnalysis_letter c rest hl]
    refine ⟨?_, ?_⟩
    · simpa using Nat.succ_le_succ (le_trans ih.1 (scanWhile_snd_length _ _))
    · intro t ht
      rcases List.mem_cons.mp ht with rfl | hm
      · simp [identToken_value]
      · exact ih.2 t hm
  | hint c rest hw hl hd ih =>
    rw [lexicalAnalysis_digit c rest hd]
    refine ⟨?_, ?_⟩
    · simpa using Nat.succ_le_succ (le_trans ih.1 (scanWhile_snd_length _ _))
    · intro t ht
      rcases List.mem_cons.mp ht with rfl | hm
      · simp
      · exact ih.2 t hm
  | hrel c rest hw hl hd hs hla ih =>
    rw [lexicalAnalysis_rel c rest hw hl hd hs hla]
    refine ⟨?_, ?_⟩
    · have hdr : (rest.drop 1).length ≤ rest.length := by
        simp only [List.length_drop]
        omega
      simpa using Nat.succ_le_succ (le_trans ih.1 hdr)
    · intro t ht
      rcases List.mem_cons.mp ht with rfl | hm
      · simp
      · exact ih.2 t hm
  | hsingle c rest hw hl hd hs hla ih =>
    rw [lexicalAnalysis_single c rest hw hl hd hs hla]
    refine ⟨by simpa using Nat.succ_le_succ ih.1, ?_⟩
    intro t ht
    rcases List.mem_cons.mp ht with rfl | hm
    · simp [classifySingle_value]
    · exact ih.2 t hm
  | herr c rest hw hl hd hs ih =>
    rw [lexicalAnalysis_err c rest hw hl hd hs]
    refine ⟨by simpa using Nat.succ_le_succ ih.1, ?_⟩
    intro t ht
    rcases List.mem_cons.mp ht with rfl | hm
    · simp
    · exact ih.2 t hm

/-! The claims. -/

/-- Claim C1: for every input string, the lexemes of the tokens returned
by lexicalAnalysis, concatenated in order, are exactly the input minus its
whitespace characters, and re-inserting the skipped whitespace characters
at their original positions reconstructs the input string exactly:
tokenization is a lossless partition of the input modulo whitespace. -/
theorem claim_C1_lossless_partition (l : List Char) :
    ((lexicalAnalysis l).map Token.value).flatten =
        l.filter (fun c => !isWhitespace c) ∧
      reinsertWhitespace l (((lexicalAnalysis l).map Token.value).flatten) = l :=
  ⟨flatten_lexemes l, by
    rw [flatten_lexemes l]
    exact reinsertWhitespace_filter l⟩

/-- Claim C2: for every input string, lexicalAnalysis terminates and
returns a complete token sequence: the scanning loop, given one unit of
fuel per input character, finishes without exhausting its budget (never
returns the out-of-fuel marker `none`) and yields exactly the token
sequence, for any input including the empty string. -/
theorem claim_C2_terminates (l : List Char) :
    lexLoop l.length l = some (lexicalAnalysis l) :=
  lexLoop_eq_some l.length l le_rfl

/-- Claim C3 counterexample: on input "<" the analyzer emits a DELIMITER
token whose character '<' lies outside the six-character set named by the
spec, so the DELIMITER set is not exactly that six-character set. -/
theorem claim_C3_counterexample :
    lexicalAnalysis ['<'] = [Token.mk "DELIMITER" ['<']] ∧
      specDelimiterChars.contains '<' = false :=
  ⟨lexicalAnalysis_eval (by decide), by decide⟩

/-- Claim C3 (amended): the set of characters emitted as DELIMITER tokens
is exactly the eight-character set slash, semicolon, parentheses, braces,
'<' and '>': every DELIMITER token holds exactly one character of that
set, and each such character standing alone yields a DELIMITER token. -/
theorem claim_C3_delimiter_set :
    (∀ l : List Char, ∀ t ∈ lexicalAnalysis l, t.type = "DELIMITER" →
        ∃ c, t.value = [c] ∧ c ∈ delimiterChars) ∧
      (∀ c ∈ delimiterChars, lexicalAnalysis [c] = [Token.mk "DELIMITER" [c]]) :=
  ⟨delimiter_value, delimiter_single_char⟩

/-- Witness for the amended claim C3 at the concrete delimiter ';'. -/
theorem claim_C3_witness :
    (∃ c, (Token.mk "DELIMITER" [';']).value = [c] ∧ c ∈ delimiterChars) ∧
      lexicalAnalysis [';'] = [Token.mk "DELIMITER" [';']] := by
  refine ⟨?_, claim_C3_delimiter_set.2 ';' (by decide)⟩
  refine claim_C3_delimiter_set.1 [';'] (Token.mk "DELIMITER" [';']) ?_ rfl
  rw [show lexicalAnalysis [';'] = [Token.mk "DELIMITER" [';']] from
    lexicalAnalysis_eval (by decide)]
  exact List.mem_singleton.mpr rfl

/-- Claim C4: two-character relational lookahead takes priority over
single-character classification: with '=', '<' or '>' at the cursor and
'=' right after it, both characters are consumed into one
RELATIONAL_OPERATOR token; a lone '=' not followed by '=' is an
ASSIGNMENT_OPERATOR; and "a==b" tokenizes as identifier, relational
operator "==", identifier. -/
theorem claim_C4_lookahead_priority :
    (∀ (c : Char) (rest : List Char), c = '=' ∨ c = '<' ∨ c = '>' →
        lexicalAnalysis (c :: '=' :: rest) =
          Token.mk "RELATIONAL_OPERATOR" [c, '='] :: lexicalAnalysis rest) ∧
      (∀ rest : List Char, lookaheadIsEq rest = false →
        lexicalAnalysis ('=' :: rest) =
          Token.mk "ASSIGNMENT_OPERATOR" ['='] :: lexicalAnalysis rest) ∧
      lexicalAnalysis "a==b".data =
        [Token.mk "IDENTIFIER" ['a'], Token.mk "RELATIONAL_OPERATOR" ['=', '='],
         Token.mk "IDENTIFIER" ['b']] := by
  refine ⟨?_, ?_, lexicalAnalysis_eval (by decide)⟩
  · intro c rest hc
    rcases hc with rfl | rfl | rfl <;>
      · rw [lexicalAnalysis_rel _ _ (by decide) (by decide) (by decide) (by decide)
          (by simp [lookaheadIsEq])]
        simp only [List.drop_succ_cons, List.drop_zero]
  · intro rest h
    rw [lexicalAnalysis_single '=' rest (by decide) (by decide) (by decide) (by decide)
      (by simp [h])]
    rfl

/-- Witness for claim C4: the lookahead branch at input "<=b" and the
lone-assignment branch at input "=". -/
theorem claim_C4_witness :
    lexicalAnalysis ['<', '=', 'b'] =
        Token.mk "RELATIONAL_OPERATOR" ['<', '='] :: lexicalAnalysis ['b'] ∧
      lexicalAnalysis ['='] =
        Token.mk "ASSIGNMENT_OPERATOR" ['='] :: lexicalAnalysis [] :=
  ⟨claim_C4_lookahead_priority.1 '<' ['b'] (by decide),
   claim_C4_lookahead_priority.2.1 [] (by decide)⟩

/-- Claim C5: a letter at the cursor starts an identifier lexeme that
accumulates the maximal following run of letters and digits, leaving the
terminating character unconsumed; the lexeme is a KEYWORD exactly when it
is one of the seven reserved words, an IDENTIFIER otherwise; "if" is a
KEYWORD and "iff" an IDENTIFIER. -/
theorem claim_C5_identifier_accumulation :
    (∀ (c : Char) (rest : List Char), isLetter c = true →
        lexicalAnalysis (c :: rest) =
          identToken (c :: rest.takeWhile isIdentChar) ::
            lexicalAnalysis (rest.dropWhile isIdentChar)) ∧
      (∀ lexeme : List Char, isKeyword lexeme = true ↔ lexeme ∈ KEYWORDS) ∧
      lexicalAnalysis "if".data = [Token.mk "KEYWORD" "if".data] ∧
      lexicalAnalysis "iff".data = [Token.mk "IDENTIFIER" "iff".data] := by
  refine ⟨?_, ?_, lexicalAnalysis_eval (by decide), lexicalAnalysis_eval (by decide)⟩
  · intro c rest h
    rw [lexicalAnalysis_letter c rest h, scanWhile_eq]
  · intro lexeme
    simp [isKeyword]

/-- Witness for claim C5 at the one-letter input "a". -/
theorem claim_C5_witness :
    lexicalAnalysis ['a'] = [Token.mk "IDENTIFIER" ['a']] := by
  have h := claim_C5_identifier_accumulation.1 'a' [] (by decide)
  simpa [identToken, isKeyword, KEYWORDS, lexicalAnalysis_nil] using h

/-- Claim C6: a character that is no letter, digit, whitespace or member
of the single-character token set is emitted as exactly one ERROR token
holding that character, after which scanning continues with the rest of
the input unaffected; in "x = 5 @ 3;" the '@' becomes an ERROR token
between the tokens for "5" and "3". -/
theorem claim_C6_error_tokens :
    (∀ (c : Char) (rest : List Char), isLetter c = false → isDigit c = false →
        isWhitespace c = false → SINGLE_CHAR_TOKENS.contains c = false →
        lexicalAnalysis (c :: rest) = Token.mk "ERROR" [c] :: lexicalAnalysis rest) ∧
      lexicalAnalysis "x = 5 @ 3;".data =
        [Token.mk "IDENTIFIER" ['x'], Token.mk "ASSIGNMENT_OPERATOR" ['='],
         Token.mk "INTEGER" ['5'], Token.mk "ERROR" ['@'],
         Token.mk "INTEGER" ['3'], Token.mk "DELIMITER" [';']] :=
  ⟨fun c rest hl hd hw hs => lexicalAnalysis_err c rest hw hl hd hs,
   lexicalAnalysis_eval (by decide)⟩

/-- Witness for claim C6 at the unrecognized character '@'. -/
theorem claim_C6_witness :
    lexicalAnalysis ['@'] = Token.mk "ERROR" ['@'] :: lexicalAnalysis [] :=
  claim_C6_error_tokens.1 '@' [] (by decide) (by decide) (by decide) (by decide)

/-- Claim C7: the empty input yields the empty token sequence, and so does
any input consisting only of whitespace characters. -/
theorem claim_C7_empty_inputs :
    lexicalAnalysis [] = [] ∧
      ∀ l : List Char, (∀ c ∈ l, isWhitespace c = true) → lexicalAnalysis l = [] := by
  refine ⟨lexicalAnalysis_nil, ?_⟩
  intro l hl
  induction l with
  | nil => exact lexicalAnalysis_nil
  | cons c rest ih =>
    rw [lexicalAnalysis_ws c rest (hl c (List.mem_cons_self c rest))]
    exact ih fun d hd => hl d (List.mem_cons_of_mem c hd)

/-- Witness for claim C7 at the whitespace-only input of three spaces, a
tab and a newline. -/
theorem claim_C7_witness : lexicalAnalysis "   \t\n".data = [] :=
  claim_C7_empty_inputs.2 "   \t\n".data (by decide)

/-- Claim C8: lexicalAnalysis is deterministic: each iteration of the
scanning loop admits exactly one successor state, from any input the loop
runs to completion, and every completed run from input l ends in the
unique state with no input left and exactly the token sequence
lexicalAnalysis l: the result depends on nothing but the input string. -/
theorem claim_C8_deterministic :
    (∀ s t t' : List Char × List Token, LexStep s t → LexStep s t' → t = t') ∧
      (∀ l : List Char, LexSteps (l, []) ([], lexicalAnalysis l)) ∧
      (∀ (l : List Char) (u : List Char × List Token),
        LexSteps (l, []) u → u.1 = [] → u = ([], lexicalAnalysis l)) := by
  refine ⟨fun s t t' h1 h2 => lexStep_det h1 h2, ?_, ?_⟩
  · intro l
    simpa using lexSteps_complete l []
  · intro l u h hu
    have h2 := lexSteps_final h hu
    simp only [List.nil_append] at h2
    obtain ⟨u1, u2⟩ := u
    simp only at hu h2
    subst hu
    subst h2
    rfl

/-- Witness for claim C8: determinism applied to two runs of the
whitespace step from state (" ", []), and uniqueness of the final state
applied to the completed run from the empty input. -/
theorem claim_C8_witness :
    (([], []) : List Char × List Token) = ([], []) ∧
      (([], []) : List Char × List Token) = ([], lexicalAnalysis []) :=
  ⟨claim_C8_deterministic.1 ([' '], []) ([], []) ([], [])
      (LexStep.ws ' ' [] [] (by decide)) (LexStep.ws ' ' [] [] (by decide)),
   claim_C8_deterministic.2.2 [] ([], []) (LexSteps.refl _) rfl⟩

/-- Claim C9: when '=', '<' or '>' is the last character of the input, the
lookahead guard fails on the empty remainder (the character after the
cursor is never read), and the character is emitted as its
single-character token: '=' as ASSIGNMENT_OPERATOR, '<' and '>' as
DELIMITER. -/
theorem claim_C9_lookahead_end :
    lookaheadIsEq [] = false ∧
      (∀ c : Char, c = '=' ∨ c = '<' ∨ c = '>' →
        lexicalAnalysis [c] = [classifySingle c]) ∧
      lexicalAnalysis ['='] = [Token.mk "ASSIGNMENT_OPERATOR" ['=']] ∧
      lexicalAnalysis ['<'] = [Token.mk "DELIMITER" ['<']] ∧
      lexicalAnalysis ['>'] = [Token.mk "DELIMITER" ['>']] := by
  refine ⟨rfl, ?_, lexicalAnalysis_eval (by decide), lexicalAnalysis_eval (by decide),
    lexicalAnalysis_eval (by decide)⟩
  intro c hc
  rcases hc with rfl | rfl | rfl <;> exact lexicalAnalysis_eval (by decide)

/-- Witness for claim C9 at the one-character input ">". -/
theorem claim_C9_witness : lexicalAnalysis ['>'] = [classifySingle '>'] :=
  claim_C9_lookahead_end.2.1 '>' (by decide)

/-- Claim C10 counterexample: the input "iff" yields one token whose
lexeme has length three, refuting "every returned token has a lexeme of
length one or two". -/
theorem claim_C10_counterexample :
    lexicalAnalysis "iff".data = [Token.mk "IDENTIFIER" ['i', 'f', 'f']] ∧
      (Token.mk "IDENTIFIER" ['i', 'f', 'f']).value.length = 3 :=
  ⟨lexicalAnalysis_eval (by decide), rfl⟩

/-- Claim C10 (amended): the number of tokens returned by lexicalAnalysis
is at most the length of the input, and every returned token has a
non-empty lexeme: each emitted token consumes at least one input
character.  (Lexemes of length greater than two do occur, for identifier,
keyword and integer tokens.) -/
theorem claim_C10_token_bounds (l : List Char) :
    (lexicalAnalysis l).length ≤ l.length ∧
      ∀ t ∈ lexicalAnalysis l, t.value ≠ [] :=
  token_bounds l

/-- Witness for the amended claim C10 at the input "a". -/
theorem claim_C10_witness :
    (lexicalAnalysis ['a']).length ≤ ['a'].length ∧
      (Token.mk "IDENTIFIER" ['a']).value ≠ [] := by
  refine ⟨(claim_C10_token_bounds ['a']).1,
    (claim_C10_token_bounds ['a']).2 (Token.mk "IDENTIFIER" ['a']) ?_⟩
  rw [show lexicalAnalysis ['a'] = [Token.mk "IDENTIFIER" ['a']] from
    lexicalAnalysis_eval (by decide)]
  exact List.mem_singleton.mpr rfl

end LA
